import Mathlib

/-!
Verification of the two CLI utilities in this repository against their
natural-language specification.

The repository has two source files:
  * `publish.cjs` — the Batch Publisher: parses archive filenames back into
    package identities, queries the registry, publishes missing versions.
  * the Snapshotter — walks `node_modules` recursively, deduplicates packages
    by the `name@version` composite key, writes a summary, and creates one
    archive per unique package via `npm pack`, skipping existing archives.

Strings are modelled as `List Char` (a JS string is a sequence of UTF-16
units; all characters involved here are plain BMP code points).  The file
system and the external `npm` subprocesses are oracles passed in as explicit
arguments: the code only ever observes directory listings, file existence,
manifest parses, subprocess exit status and stdout, and these observations
are exactly what the oracles provide.
-/

/-! ## Filename codec (publish.cjs `extractPackageInfo`,
    snapshotter `getPossiblePackageFilenames`) -/

/-- The archive extension `.tgz` as a character list. -/
def tgzExt : List Char := ['.', 't', 'g', 'z']

/-- Models `baseName.replace(/\.tgz$/, '')`: drop a trailing `.tgz` if present. -/
def stripTgz (s : List Char) : List Char :=
  if tgzExt.isSuffixOf s then s.take (s.length - 4) else s

/-- Character class `[a-zA-Z0-9.]` of the prerelease part of the version
regex in `extractPackageInfo`. -/
def preChar (c : Char) : Bool :=
  c.isDigit || ('a' ≤ c && c ≤ 'z') || ('A' ≤ c && c ≤ 'Z') || c == '.'

/-- Models a full match of the version regex
`\d+\.\d+\.\d+(?:-[a-zA-Z0-9.]+)?` against the whole string `s`:
three nonempty digit runs separated by periods, optionally followed by a
hyphen and a nonempty run over `[a-zA-Z0-9.]`.  Because a period and a
hyphen are not digits, taking each digit run maximally is equivalent to the
regex's backtracking search for a full match. -/
def versionLike (s : List Char) : Bool :=
  let p1 := s.span Char.isDigit
  match p1.2 with
  | '.' :: r2 =>
    let p2 := r2.span Char.isDigit
    match p2.2 with
    | '.' :: r4 =>
      let p3 := r4.span Char.isDigit
      (!p1.1.isEmpty) && (!p2.1.isEmpty) && (!p3.1.isEmpty) &&
      (match p3.2 with
       | [] => true
       | '-' :: pre => (!pre.isEmpty) && pre.all preChar
       | _ => false)
    | _ => false
  | _ => false

/-- Models the `baseName.match` against the anchored regex
`-(\d+\.\d+\.\d+(?:-[a-zA-Z0-9.]+)?)$` in `extractPackageInfo`: the
regex engine returns the match at the leftmost hyphen whose entire suffix
matches the anchored version pattern.  Returns
`(text before that hyphen, text after it)`, i.e. the `nameWithHyphen` and
`version` of `extractPackageInfo` (the source recovers `nameWithHyphen` by
`baseName.substring(0, baseName.length - version.length - 1)`, which is the
text before the matched hyphen since the match extends to the end). -/
def findVersionSuffix : List Char → Option (List Char × List Char)
  | [] => none
  | c :: rest =>
    if (c == '-') && versionLike rest then some ([], rest)
    else
      match findVersionSuffix rest with
      | some pv => some (c :: pv.1, pv.2)
      | none => none

/-- Models `String.prototype.split('-')`: JS split on a single-character
separator; `split` of a string with k hyphens yields k+1 (possibly empty)
pieces. -/
def splitOnHyphen : List Char → List (List Char)
  | [] => [[]]
  | c :: rest =>
    if c == '-' then [] :: splitOnHyphen rest
    else
      match splitOnHyphen rest with
      | h :: t => (c :: h) :: t
      | [] => [[c]]

/-- Models `Array.prototype.join('-')` on a list of pieces. -/
def joinHyphen : List (List Char) → List Char
  | [] => []
  | [x] => x
  | x :: xs => x ++ '-' :: joinHyphen xs

/-- The scoped-name reconstruction of `extractPackageInfo` (publish.cjs
lines 51-61): if `nameWithHyphen` contains a hyphen, split on hyphens; if
there are at least two parts and the first contains no period, rebuild the
name as `@` + first part + `/` + remaining parts rejoined with hyphens. -/
def scopeName (nameWithHyphen : List Char) : List Char :=
  if nameWithHyphen.contains '-' then
    if (decide (2 ≤ (splitOnHyphen nameWithHyphen).length)) &&
        !((splitOnHyphen nameWithHyphen).headD []).contains '.' then
      '@' :: ((splitOnHyphen nameWithHyphen).headD []) ++
        '/' :: joinHyphen (splitOnHyphen nameWithHyphen).tail
    else nameWithHyphen
  else nameWithHyphen

/-- Models `extractPackageInfo(tgzFileName)` of publish.cjs: strip the
`.tgz` extension, locate the trailing version-like suffix, and apply the
scoped-name heuristic to what precedes it.  Returns `none` when the version
regex does not match. -/
def extractPackageInfo (tgzFileName : List Char) : Option (List Char × List Char) :=
  let baseName := stripTgz tgzFileName
  match findVersionSuffix baseName with
  | some pv => some (scopeName pv.1, pv.2)
  | none => none

/-- Models `c => c != '/'` used below for `name.split('/')[1]`. -/
def notSlash (c : Char) : Bool := !(c == '/')

/-- Models `name.replace(pat, '')` deleting the first occurrence of the
single character `pat`. -/
def removeFirstChar (pat : Char) : List Char → List Char
  | [] => []
  | c :: rest => if c == pat then rest else c :: removeFirstChar pat rest

/-- Models `name.replace(pat, sub)` replacing the first occurrence of the
single character `pat` by the single character `sub`. -/
def replaceFirstChar (pat sub : Char) : List Char → List Char
  | [] => []
  | c :: rest => if c == pat then sub :: rest else c :: replaceFirstChar pat sub rest

/-- Models `getPossiblePackageFilenames(name, version)` of the Snapshotter:
`normalizedName` is `name.replace('@','').replace('/','-')`,
`nameWithoutScope` is `name.split('/')[1]` when the name contains a slash
(the piece between the first and second slash) and `name` otherwise; the
returned candidates are the three template strings of the source, the third
being the same expression as the first. -/
def getPossiblePackageFilenames (name version : List Char) : List (List Char) :=
  let normalizedName := replaceFirstChar '/' '-' (removeFirstChar '@' name)
  let nameWithoutScope :=
    if name.contains '/' then ((name.dropWhile notSlash).drop 1).takeWhile notSlash
    else name
  [ normalizedName ++ '-' :: (version ++ tgzExt),
    nameWithoutScope ++ '-' :: (version ++ tgzExt),
    replaceFirstChar '/' '-' (removeFirstChar '@' name) ++ '-' :: (version ++ tgzExt) ]

/-! ## Batch Publisher runtime (publish.cjs `isPackagePublished`, `main`)

The registry and the `npm` subprocesses are oracles:
  * `view name version` models running
    `npm view name@version version --registry=...` and yields either the
    command's stdout (`QueryResult.ok stdout`) or a rejection
    (`QueryResult.err`, covering a non-zero exit for any reason);
  * `publishOk file` models whether `npm publish "tgzDir/file" ...`
    exits zero (`execSync` throws otherwise).
-/

/-- Result of the `npm view` subprocess promise: resolved with stdout, or
rejected (non-zero exit / not found / any other error). -/
inductive QueryResult where
  | ok (stdout : List Char) : QueryResult
  | err : QueryResult
deriving DecidableEq

/-- Whitespace recognized by `String.prototype.trim` (the ASCII portion;
none of the strings in this development contain non-ASCII whitespace). -/
def jsWhitespace (c : Char) : Bool :=
  c == ' ' || c == '\t' || c == '\n' || c == '\r' || c == '\x0b' || c == '\x0c'

/-- Models `stdout.trim()`. -/
def trimChars (s : List Char) : List Char :=
  ((s.dropWhile jsWhitespace).reverse.dropWhile jsWhitespace).reverse

/-- Models `isPackagePublished(packageName, version, registry)` of
publish.cjs: on a resolved query compare `stdout.trim() === version`;
on any rejection the catch block returns `false`. -/
def isPackagePublished (result : QueryResult) (version : List Char) : Bool :=
  match result with
  | .ok stdout => trimChars stdout == version
  | .err => false

/-- Per-file counters and the list of files for which the external
`npm publish` command was invoked, in invocation order. -/
structure PubAcc where
  success : Nat
  skipped : Nat
  failure : Nat
  publishes : List (List Char)
deriving DecidableEq

/-- Models one iteration of the publish loop of `main` (publish.cjs lines
102-140) on file `file`: unparsable name counts as a failure; a published
version counts as skipped; otherwise `npm publish` is invoked on the file
and a throwing invocation counts as a failure. -/
def publishStep (view : List Char → List Char → QueryResult)
    (publishOk : List Char → Bool) (acc : PubAcc) (file : List Char) : PubAcc :=
  match extractPackageInfo file with
  | none => { acc with failure := acc.failure + 1 }
  | some nv =>
    if isPackagePublished (view nv.1 nv.2) nv.2 then
      { acc with skipped := acc.skipped + 1 }
    else if publishOk file then
      { acc with success := acc.success + 1, publishes := acc.publishes ++ [file] }
    else
      { acc with failure := acc.failure + 1, publishes := acc.publishes ++ [file] }

/-- Observable outcome of a whole publisher run.  `exitCode = some n`
records an explicit `process.exit(n)`; `none` means `main` ran to the final
tally.  `warnedEmpty` records the warning logged when no archive file was
found. -/
structure PubResult where
  exitCode : Option Nat
  warnedEmpty : Bool
  success : Nat
  skipped : Nat
  failure : Nat
  publishes : List (List Char)
deriving DecidableEq

/-- Models a run of publish.cjs: the top-level argument check (lines 13-17)
and `main` (lines 79-150).  `args` is `process.argv.slice(2)`; `dirExists`
models `fs.existsSync(tgzDir)`; `dirEntries` is `fs.readdirSync(tgzDir)`,
filtered for names ending in `.tgz` as in the source. -/
def runPublisher (args : List (List Char)) (dirExists : Bool)
    (dirEntries : List (List Char)) (view : List Char → List Char → QueryResult)
    (publishOk : List Char → Bool) : PubResult :=
  if args.length < 1 then ⟨some 1, false, 0, 0, 0, []⟩
  else if !dirExists then ⟨some 1, false, 0, 0, 0, []⟩
  else
    let files := dirEntries.filter (fun f => tgzExt.isSuffixOf f)
    if files.length = 0 then ⟨some 0, true, 0, 0, 0, []⟩
    else
      let acc := files.foldl (publishStep view publishOk) ⟨0, 0, 0, []⟩
      ⟨none, false, acc.success, acc.skipped, acc.failure, acc.publishes⟩

/-! ## Dependency Snapshotter (unnamed source file)

The file system is an oracle `FsMap` mapping a path (a list of components
relative to the working directory) to what the `fs` calls observe there:
nothing (`missing`), a plain file together with the result of reading and
JSON-parsing it as a manifest (`fileNode`), or a directory with its listing
(`dirNode`).  This supports cyclic symlink structures, where the set of
observable paths is infinite while every single observation is finite.

A `fileNode`'s payload is the outcome of `getPackageInfo` on that file:
`none` when `JSON.parse` fails, otherwise the `{name, version}` pair after
the source's `|| 'unknown'` defaulting.  `fs.statSync(p).isDirectory()` is
`dirNode` at `p`; `statSync` on a `missing` path throws; `readdirSync` on a
non-directory throws; `fs.existsSync p` is true unless `p` is `missing`.
External effects without observable influence on the claims (log writes,
`mkdir` of the output directory, deleting `error.log`) are not modelled,
and the `npm pack` subprocess is the oracle `packOk`. -/

/-- Name and version of a package, as read from a manifest. -/
abbrev PkgInfo := List Char × List Char

/-- A file-system path as a list of name components; `path.join(p, c)`
is `p ++ [c]`. -/
abbrev FPath := List (List Char)

/-- What the file system presents at one path. -/
inductive FSKind where
  | missing : FSKind
  | fileNode (manifest : Option PkgInfo) : FSKind
  | dirNode (entries : List (List Char)) : FSKind
deriving DecidableEq

/-- The file-system oracle. -/
abbrev FsMap := FPath → FSKind

/-- The composite key of the deduplication set and of the dedupe map in
`main`: the template string `name@version`. -/
def pkgKey (p : PkgInfo) : List Char := p.1 ++ '@' :: p.2

/-- Models `getPackageInfo(path.join(packagePath, 'package.json'))`: reading
a missing path or a directory throws and the catch returns null; reading a
file yields its parse outcome. -/
def getPackageInfoAt (fsm : FsMap) (packagePath : FPath) : Option PkgInfo :=
  match fsm (packagePath ++ ["package.json".toList]) with
  | .fileNode m => m
  | _ => none

/-- State threaded through the walk: the accumulated `packages` array (in
discovery order, each entry tagged with the recursion depth at which it was
pushed) and the mutable `processedPackages` set of composite keys, modelled
as the list of keys in insertion order.  `warnedMissing` records the
depth-0 console message for a missing `node_modules` root. -/
structure WalkState where
  packages : List (PkgInfo × Nat)
  processed : List (List Char)
  warnedMissing : Bool
deriving DecidableEq

/-- Models the shared per-package block of `getAllPackages` (lines 85-100
and 112-127 of the source, which are identical): read the manifest; on a
parse give up silently; otherwise, if the composite key is new, push the
package, mark the key processed, and when the package has its own
`node_modules` entry (of any kind — the source only checks `existsSync`)
recurse into it via `recurse`.  `depth` is the recursion depth recorded
with the pushed package. -/
def processPackageDir (fsm : FsMap) (recurse : FPath → WalkState → WalkState)
    (depth : Nat) (packagePath : FPath) (st : WalkState) : WalkState :=
  match getPackageInfoAt fsm packagePath with
  | none => st
  | some info =>
    let key := pkgKey info
    if st.processed.contains key then st
    else
      let st' : WalkState :=
        { st with packages := st.packages ++ [(info, depth)],
                  processed := st.processed ++ [key] }
      match fsm (packagePath ++ ["node_modules".toList]) with
      | .missing => st'
      | _ => recurse (packagePath ++ ["node_modules".toList]) st'

/-- Models the inner loop over `namespaceEntries` (lines 82-103).  The loop
sits inside the inner try/catch, so a `statSync` throw on a listed-but-
missing entry abandons the remaining namespace entries (the catch logs and
the outer loop continues). -/
def walkNsEntries (fsm : FsMap) (recurse : FPath → WalkState → WalkState)
    (depth : Nat) (namespacePath : FPath) :
    List (List Char) → WalkState → WalkState
  | [], st => st
  | e :: rest, st =>
    match fsm (namespacePath ++ [e]) with
    | .missing => st
    | .fileNode _ => walkNsEntries fsm recurse depth namespacePath rest st
    | .dirNode _ =>
      walkNsEntries fsm recurse depth namespacePath rest
        (processPackageDir fsm recurse depth (namespacePath ++ [e]) st)

/-- Models the main loop over `entries` of `getAllPackages` (lines 74-131):
entries starting with `@` open one more directory level; `.bin`, `.cache`
and `.package-lock.json` are skipped; other directory entries are processed
as packages.  The loop sits inside the outer try/catch, so a `statSync`
throw outside the inner try (a listed-but-missing entry at this level)
abandons the remaining entries. -/
def walkEntries (fsm : FsMap) (recurse : FPath → WalkState → WalkState)
    (depth : Nat) (nodeModulesPath : FPath) :
    List (List Char) → WalkState → WalkState
  | [], st => st
  | e :: rest, st =>
    if e.head? = some '@' then
      match fsm (nodeModulesPath ++ [e]) with
      | .missing => st
      | .fileNode _ => walkEntries fsm recurse depth nodeModulesPath rest st
      | .dirNode nsEntries =>
        walkEntries fsm recurse depth nodeModulesPath rest
          (walkNsEntries fsm recurse depth (nodeModulesPath ++ [e]) nsEntries st)
    else if e = ".bin".toList || e = ".cache".toList || e = ".package-lock.json".toList then
      walkEntries fsm recurse depth nodeModulesPath rest st
    else
      match fsm (nodeModulesPath ++ [e]) with
      | .missing => st
      | .fileNode _ => walkEntries fsm recurse depth nodeModulesPath rest st
      | .dirNode _ =>
        walkEntries fsm recurse depth nodeModulesPath rest
          (processPackageDir fsm recurse depth (nodeModulesPath ++ [e]) st)

/-- Models `getAllPackages(nodeModulesPath, processedPackages, depth,
maxDepth)` (lines 55-137).  The source recurses with `depth + 1` and stops
as soon as `depth > maxDepth`; `fuel` is the remaining recursion budget
`maxDepth + 1 - depth`, so `fuel = 0` is exactly the `depth > maxDepth`
stop, and `depth` is carried alongside as the value recorded with each
discovered package.  A missing path returns the empty contribution (with
the depth-0 warning); a non-directory path makes `readdirSync` throw, which
the outer catch turns into the empty contribution. -/
def getAllPackagesGo (fsm : FsMap) :
    Nat → Nat → FPath → WalkState → WalkState
  | 0, _, _, st => st
  | fuel + 1, depth, nodeModulesPath, st =>
    match fsm nodeModulesPath with
    | .missing => if depth = 0 then { st with warnedMissing := true } else st
    | .fileNode _ => st
    | .dirNode entries =>
      walkEntries fsm (fun p s => getAllPackagesGo fsm fuel (depth + 1) p s)
        depth nodeModulesPath entries st

/-- Models the top-level call `getAllPackages(nodeModulesPath)` of `main`
with the source's default arguments: empty processed set, depth 0, and the
given `maxDepth` (10 in `main`). -/
def getAllPackages (fsm : FsMap) (nodeModulesPath : FPath) (maxDepth : Nat) : WalkState :=
  getAllPackagesGo fsm (maxDepth + 1) 0 nodeModulesPath ⟨[], [], false⟩

/-- The Snapshotter's `node_modules` path: `path.join(process.cwd(),
'node_modules')`, with the working directory as the path root. -/
def nodeModulesRoot : FPath := ["node_modules".toList]

/-- The Snapshotter's output directory `path.join(process.cwd(), 'pkg')`. -/
def outputDirPath : FPath := ["pkg".toList]

/-- Models `isPackageAlreadyDownloaded(name, version, outputDir)`: true iff
some candidate filename exists (as anything) in the output directory. -/
def isPackageAlreadyDownloaded (fsm : FsMap) (name version : List Char) : Bool :=
  (getPossiblePackageFilenames name version).any
    (fun filename => !(fsm (outputDirPath ++ [filename]) matches .missing))

/-- Models `createPackageFile(packageInfo, outputDir, ...)` with the
`npm pack` subprocess as the oracle `packOk`.  Returns (operation success,
whether the external command was invoked): the function re-checks
`isPackageAlreadyDownloaded` and skips with success when it holds,
otherwise it invokes `npm pack`, whose throw (non-zero exit or the
60-second timeout) yields failure. -/
def createPackageFile (fsm : FsMap) (packOk : PkgInfo → Bool)
    (pkg : PkgInfo) : Bool × Bool :=
  if isPackageAlreadyDownloaded fsm pkg.1 pkg.2 then (true, false)
  else (packOk pkg, true)

/-- Counters of the archive-creation loop of `main` (lines 288-308) plus
the packages for which the external `npm pack` command was invoked. -/
structure PackAcc where
  success : Nat
  skipped : Nat
  failCount : Nat
  invocations : List PkgInfo
deriving DecidableEq

/-- Models one iteration of `uniquePackages.forEach` in `main` (lines
294-308): an already-existing archive counts as skipped and also as a
success; otherwise `createPackageFile` decides success or failure. -/
def packStep (fsm : FsMap) (packOk : PkgInfo → Bool)
    (acc : PackAcc) (pkg : PkgInfo) : PackAcc :=
  if isPackageAlreadyDownloaded fsm pkg.1 pkg.2 then
    { acc with skipped := acc.skipped + 1, success := acc.success + 1 }
  else
    let r := createPackageFile fsm packOk pkg
    let acc' := { acc with invocations := acc.invocations ++ (if r.2 then [pkg] else []) }
    if r.1 then { acc' with success := acc'.success + 1 }
    else { acc' with failCount := acc'.failCount + 1 }

/-- The whole archive-creation loop of `main` over the deduplicated,
sorted package list. -/
def packLoop (fsm : FsMap) (packOk : PkgInfo → Bool) (pkgs : List PkgInfo) : PackAcc :=
  pkgs.foldl (packStep fsm packOk) ⟨0, 0, 0, []⟩

/-- Models the dedupe in `main` (lines 270-272):
`new Map(packages.map(pkg => [key, pkg]))` keeps one entry per key at the
key's first insertion position, with the value overwritten by the last
insertion; `.values()` lists the values in that order. -/
def mapInsert (m : List (List Char × PkgInfo)) (k : List Char) (v : PkgInfo) :
    List (List Char × PkgInfo) :=
  if m.any (fun e => e.1 == k) then
    m.map (fun e => if e.1 == k then (k, v) else e)
  else m ++ [(k, v)]

/-- The values of the dedupe map built from the discovered package list. -/
def mapDedupe (pkgs : List PkgInfo) : List PkgInfo :=
  (pkgs.foldl (fun m p => mapInsert m (pkgKey p) p) []).map (fun e => e.2)

/-- Code-point comparison on names, modelling the
`a.name.localeCompare(b.name)` sort key (`localeCompare` is
locale-sensitive; for the ASCII names involved here the default locale
agrees with code-point order). -/
def charListLe : List Char → List Char → Bool
  | [], _ => true
  | _ :: _, [] => false
  | a :: as, b :: bs => if a = b then charListLe as bs else decide (a < b)

/-- Stable insertion into a name-sorted list. -/
def insertByName (p : PkgInfo) : List PkgInfo → List PkgInfo
  | [] => [p]
  | q :: qs => if charListLe p.1 q.1 then p :: q :: qs else q :: insertByName p qs

/-- Models `.sort((a, b) => a.name.localeCompare(b.name))` (a stable sort
by name). -/
def sortByName (pkgs : List PkgInfo) : List PkgInfo :=
  pkgs.foldr insertByName []

/-- Observable outcome of one Snapshotter run.  `summaryWritten` records
whether `fs.writeFileSync('packages-summary.json', ...)` was reached;
`summaryPackages` the `packages` field of the written record;
`warnedEmpty` the console message of the early return when no package was
found; `warnedMissing` the depth-0 missing-`node_modules` message. -/
structure SnapResult where
  warnedMissing : Bool
  warnedEmpty : Bool
  summaryWritten : Bool
  summaryTotal : Nat
  summaryPackages : List PkgInfo
  success : Nat
  skipped : Nat
  failCount : Nat
  packInvocations : List PkgInfo
deriving DecidableEq

/-- Models `main()` of the Snapshotter (lines 238-322): walk
`node_modules` with `maxDepth = 10`; if no package was found, log and
return — in the source this early return comes before the summary write,
so no `packages-summary.json` is produced; otherwise dedupe by key, sort
by name, write the summary, and run the archive-creation loop.  (The
direct-dependency counts read from the project manifest only feed log lines
and two summary fields no claim mentions, and are not modelled.) -/
def snapMain (fsm : FsMap) (packOk : PkgInfo → Bool) : SnapResult :=
  let st := getAllPackages fsm nodeModulesRoot 10
  if st.packages.length = 0 then
    ⟨st.warnedMissing, true, false, 0, [], 0, 0, 0, []⟩
  else
    let uniquePackages := sortByName (mapDedupe (st.packages.map (fun x => x.1)))
    let acc := packLoop fsm packOk uniquePackages
    ⟨st.warnedMissing, false, true, uniquePackages.length, uniquePackages,
      acc.success, acc.skipped, acc.failCount, acc.invocations⟩

/-! ## Concrete scenarios used by individual claims -/

/-- Decidable check that every version-like suffix of `l` (every hyphen
whose whole remaining suffix matches the version pattern) has length at
most `k`; used to state that a given version is a longest version-like
suffix. -/
def maxVerLe : List Char → Nat → Bool
  | [], _ => true
  | c :: rest, k =>
    ((!((c == '-') && versionLike rest)) || decide (rest.length ≤ k)) && maxVerLe rest k

/-- Modelled from the spec: the scoped-name reconstruction in the words of
section 4.2 decode — "if the name-with-hyphen form contains a delimiter and
its first segment contains no embedded period, reconstruct it as a scoped
name by treating the first segment as the namespace", the first segment
being everything before the first hyphen and the remainder everything after
it.  Stated independently of the source's split/join implementation, to be
compared with `scopeName`. -/
def specScopedName (nameWithHyphen : List Char) : List Char :=
  if nameWithHyphen.contains '-' &&
      !((nameWithHyphen.takeWhile (fun c => !(c == '-'))).contains '.') then
    '@' :: (nameWithHyphen.takeWhile (fun c => !(c == '-'))) ++
      '/' :: ((nameWithHyphen.dropWhile (fun c => !(c == '-'))).drop 1)
  else nameWithHyphen

/-- C1's archive directory listing, in the sorted order `readdirSync`
produces (`@` sorts before `l`). -/
def c1Files : List (List Char) :=
  ["@scope-utils-2.3.4.tgz".toList, "left-pad-1.0.0.tgz".toList]

/-- C1's registry state: exactly `left-pad@1.0.0` exists, so an
`npm view name@version version` query succeeds (printing the version and a
newline) only for that pair and fails for every other name or version —
in particular for `@scope/utils`, for the misparsed `@left/pad`, and for
the invalid `@@scope/utils`. -/
def c1View : List Char → List Char → QueryResult := fun name version =>
  if name = "left-pad".toList && version = "1.0.0".toList then
    QueryResult.ok ("1.0.0\n".toList)
  else QueryResult.err

/-- C1's publish oracle: `npm publish left-pad-1.0.0.tgz` fails because
`left-pad@1.0.0` already exists in the registry (publish conflict), while
publishing `@scope-utils-2.3.4.tgz` (the archive of the absent
`@scope/utils@2.3.4`) succeeds. -/
def c1PublishOk : List Char → Bool := fun file =>
  file = "@scope-utils-2.3.4.tgz".toList

/-- The C1 run: publisher invoked with the archive directory argument, the
directory existing and listing exactly the two files. -/
def c1Run : PubResult :=
  runPublisher ["archives".toList] true c1Files c1View c1PublishOk

/-- C2's file system: nothing exists at all — in particular
`node_modules` does not. -/
def fsNone : FsMap := fun _ => FSKind.missing

/-- C5's file system: `node_modules/a` carries a manifest `(a, 1.0.0)` at
depth 0, and `node_modules/a/node_modules/b` carries an identical manifest
`(a, 1.0.0)` at depth 1. -/
def fsDup : FsMap := fun p =>
  if p = ["node_modules".toList] then
    FSKind.dirNode ["a".toList]
  else if p = ["node_modules".toList, "a".toList] then
    FSKind.dirNode ["package.json".toList, "node_modules".toList]
  else if p = ["node_modules".toList, "a".toList, "package.json".toList] then
    FSKind.fileNode (some ("a".toList, "1.0.0".toList))
  else if p = ["node_modules".toList, "a".toList, "node_modules".toList] then
    FSKind.dirNode ["b".toList]
  else if p = ["node_modules".toList, "a".toList, "node_modules".toList, "b".toList] then
    FSKind.dirNode ["package.json".toList]
  else if p = ["node_modules".toList, "a".toList, "node_modules".toList, "b".toList,
      "package.json".toList] then
    FSKind.fileNode (some ("a".toList, "1.0.0".toList))
  else FSKind.missing

/-- C6's file system: a manufactured cyclic symlink structure.  Every
`node_modules` directory lists one package `a`, and every package `a` has a
manifest and its own `node_modules`, unfolding to an infinite path tree (as
a directory containing a symlink to an ancestor does).  The manifest
version is a string whose length grows with the path, so every level
presents a fresh `name@version` key and dedupe never cuts the recursion —
only the depth bound does. -/
def fsCyc : FsMap := fun p =>
  match p.getLast? with
  | some last =>
    if last = "node_modules".toList then FSKind.dirNode ["a".toList]
    else if last = "a".toList then
      FSKind.dirNode ["package.json".toList, "node_modules".toList]
    else if last = "package.json".toList then
      FSKind.fileNode (some ("a".toList, List.replicate p.length 'x'))
    else FSKind.missing
  | none => FSKind.missing

/-- C7's witness file system: the archive `foo-1.0.0.tgz` already exists in
the output directory and nothing else does. -/
def fsFooPkg : FsMap := fun p =>
  if p = (outputDirPath ++ ["foo-1.0.0.tgz".toList]) then FSKind.fileNode none
  else FSKind.missing

/-- The composite keys recorded in a walk state, in discovery order. -/
def walkKeys (st : WalkState) : List (List Char) :=
  st.packages.map (fun x => pkgKey x.1)

/-- Invariant of the walk state: the recorded composite keys are distinct,
and every recorded key is in the processed set. -/
def WalkInv (st : WalkState) : Prop :=
  (walkKeys st).Nodup ∧ ∀ k ∈ walkKeys st, k ∈ st.processed

/-- All packages of a walk state were recorded at depth at most `bound`. -/
def DepthOk (bound : Nat) (st : WalkState) : Prop :=
  ∀ x ∈ st.packages, x.2 ≤ bound

/-! ## Helper lemmas -/

/-- Soundness of the version-suffix search: a match splits the base name at
a hyphen whose suffix is version-like. -/
theorem findVersionSuffix_sound :
    ∀ l q w, findVersionSuffix l = some (q, w) →
      l = q ++ '-' :: w ∧ versionLike w = true := by
  intro l
  induction l with
  | nil => intro q w h; simp [findVersionSuffix] at h
  | cons c rest ih =>
    intro q w h
    rw [findVersionSuffix] at h
    by_cases hc : ((c == '-') && versionLike rest) = true
    · rw [if_pos hc] at h
      obtain ⟨h1, h2⟩ := Option.some.inj h |> Prod.mk.inj
      obtain ⟨hc1, hc2⟩ := Bool.and_eq_true .. ▸ hc
      subst h1 h2
      exact ⟨by simp [(beq_iff_eq ..).mp hc1], hc2⟩
    · rw [if_neg hc] at h
      cases hr : findVersionSuffix rest with
      | none => rw [hr] at h; exact absurd h (by simp)
      | some pv =>
        rw [hr] at h
        obtain ⟨h1, h2⟩ := Option.some.inj h |> Prod.mk.inj
        obtain ⟨hrest, hver⟩ := ih pv.1 pv.2 (by rw [hr])
        subst h1 h2
        exact ⟨by rw [List.cons_append, ← hrest], hver⟩

/-- Completeness of the version-suffix search: if some hyphen of the base
name is followed by a version-like suffix, the search succeeds, and the
returned version is at least as long as that suffix (the regex match starts
at the leftmost viable hyphen). -/
theorem findVersionSuffix_complete :
    ∀ p v, versionLike v = true →
      ∃ q w, findVersionSuffix (p ++ '-' :: v) = some (q, w) ∧ v.length ≤ w.length := by
  intro p
  induction p with
  | nil =>
    intro v hv
    exact ⟨[], v, by simp [findVersionSuffix, hv], le_refl _⟩
  | cons c p' ih =>
    intro v hv
    by_cases hc : ((c == '-') && versionLike (p' ++ '-' :: v)) = true
    · refine ⟨[], p' ++ '-' :: v, ?_, ?_⟩
      · rw [List.cons_append, findVersionSuffix, if_pos hc]
      · simp only [List.length_append, List.length_cons]; omega
    · obtain ⟨q, w, hq, hlen⟩ := ih v hv
      exact ⟨c :: q, w, by rw [List.cons_append, findVersionSuffix, if_neg hc, hq], hlen⟩

/-- Stripping the extension from a name built with the extension. -/
theorem stripTgz_concat (x : List Char) : stripTgz (x ++ tgzExt) = x := by
  rw [stripTgz, if_pos (List.isSuffixOf_iff_suffix.mpr (List.suffix_append x tgzExt))]
  rw [List.length_append]
  exact List.take_left' (by simp [tgzExt])

/-- Transfer of the decidable longest-suffix check to its meaning. -/
theorem maxVerLe_spec :
    ∀ l k, maxVerLe l k = true →
      ∀ p w, l = p ++ '-' :: w → versionLike w = true → w.length ≤ k := by
  intro l
  induction l with
  | nil =>
    intro k _ p w hpw _
    exact absurd hpw (by simp)
  | cons c rest ih =>
    intro k h p w hpw hw
    rw [maxVerLe, Bool.and_eq_true] at h
    cases p with
    | nil =>
      simp only [List.nil_append, List.cons.injEq] at hpw
      obtain ⟨hc, hrest⟩ := hpw
      subst hc hrest
      rcases Bool.or_eq_true _ _ |>.mp h.1 with h1 | h1
      · rw [Bool.not_eq_eq_eq_not, Bool.not_true, Bool.and_eq_false_iff] at h1
        rcases h1 with h1 | h1
        · simp at h1
        · rw [hw] at h1; cases h1
      · exact of_decide_eq_true h1
    | cons a p' =>
      simp only [List.cons_append, List.cons.injEq] at hpw
      exact ih k h.2 p' w hpw.2 hw

/-- A JS split never returns an empty array. -/
theorem splitOnHyphen_shape : ∀ l : List Char, ∃ h t, splitOnHyphen l = h :: t := by
  intro l
  induction l with
  | nil => exact ⟨[], [], rfl⟩
  | cons c rest ih =>
    obtain ⟨h, t, hht⟩ := ih
    by_cases hc : (c == '-') = true
    · exact ⟨[], splitOnHyphen rest, by rw [splitOnHyphen, if_pos hc]⟩
    · exact ⟨c :: h, t, by rw [splitOnHyphen, if_neg hc, hht]⟩

/-- Rejoining the pieces of a JS split restores the original string. -/
theorem joinHyphen_splitOnHyphen : ∀ l : List Char, joinHyphen (splitOnHyphen l) = l := by
  intro l
  induction l with
  | nil => rfl
  | cons c rest ih =>
    obtain ⟨h, t, hht⟩ := splitOnHyphen_shape rest
    by_cases hc : (c == '-') = true
    · rw [splitOnHyphen, if_pos hc, hht]
      have hjoin : joinHyphen (h :: t) = rest := by rw [← hht]; exact ih
      have hc' : c = '-' := (beq_iff_eq ..).mp hc
      subst hc'
      show '-' :: joinHyphen (h :: t) = '-' :: rest
      rw [hjoin]
    · rw [splitOnHyphen, if_neg hc, hht]
      cases t with
      | nil =>
        have hrest : h = rest := by rw [hht] at ih; exact ih
        show c :: h = c :: rest
        rw [hrest]
      | cons t1 ts =>
        have hjoin : joinHyphen (h :: t1 :: ts) = rest := by rw [← hht]; exact ih
        show (c :: h) ++ '-' :: joinHyphen (t1 :: ts) = c :: rest
        rw [List.cons_append]
        rw [show h ++ '-' :: joinHyphen (t1 :: ts) = joinHyphen (h :: t1 :: ts) from rfl]
        rw [hjoin]

/-- On a string containing a hyphen, the JS split starts with the text
before the first hyphen, followed by the split of the text after it. -/
theorem splitOnHyphen_contains :
    ∀ l : List Char, l.contains '-' = true →
      splitOnHyphen l =
        (l.takeWhile (fun c => !(c == '-'))) ::
          splitOnHyphen ((l.dropWhile (fun c => !(c == '-'))).drop 1) := by
  intro l
  induction l with
  | nil => intro h; rw [List.contains_nil] at h; cases h
  | cons c rest ih =>
    intro h
    by_cases hc : (c == '-') = true
    · rw [splitOnHyphen, if_pos hc, List.takeWhile_cons, List.dropWhile_cons]
      simp [hc]
    · have hrest : rest.contains '-' = true := by
        rw [List.contains_cons] at h
        rcases Bool.or_eq_true _ _ |>.mp h with h1 | h1
        · exact absurd ((beq_iff_eq ..).mpr ((beq_iff_eq ..).mp h1).symm) hc
        · exact h1
      rw [splitOnHyphen, if_neg hc, ih hrest, List.takeWhile_cons, List.dropWhile_cons]
      simp [hc]

/-- The source's split/join implementation of the scoped-name heuristic
agrees with the spec's description in terms of the first hyphen. -/
theorem scopeName_eq_specScopedName : ∀ l : List Char, scopeName l = specScopedName l := by
  intro l
  by_cases hcont : l.contains '-' = true
  · obtain ⟨h, t, hht⟩ := splitOnHyphen_shape ((l.dropWhile (fun c => !(c == '-'))).drop 1)
    have hjoin : joinHyphen (splitOnHyphen ((l.dropWhile (fun c => !(c == '-'))).drop 1)) =
        (l.dropWhile (fun c => !(c == '-'))).drop 1 := joinHyphen_splitOnHyphen _
    rw [hht] at hjoin
    rw [scopeName, if_pos hcont, specScopedName, splitOnHyphen_contains l hcont, hht, hcont,
      List.headD_cons, List.tail_cons]
    by_cases hdot : (l.takeWhile (fun c => !(c == '-'))).contains '.' = true
    · rw [hdot]; simp
    · rw [Bool.not_eq_true] at hdot
      rw [hdot, hjoin]
      simp
  · rw [Bool.not_eq_true] at hcont
    rw [scopeName, specScopedName, hcont]
    simp

/-- The per-package block preserves the key invariant: a package is pushed
only when its key is not yet processed, and the key is marked processed
together with the push. -/
theorem processPackageDir_inv (fsm : FsMap) (recurse : FPath → WalkState → WalkState)
    (depth : Nat) (packagePath : FPath)
    (hrec : ∀ p s, WalkInv s → WalkInv (recurse p s)) :
    ∀ st, WalkInv st → WalkInv (processPackageDir fsm recurse depth packagePath st) := by
  intro st hst
  rw [processPackageDir]
  cases hinfo : getPackageInfoAt fsm packagePath with
  | none => exact hst
  | some info =>
    by_cases hkey : st.processed.contains (pkgKey info) = true
    · simp only [hkey, if_true]; exact hst
    · simp only [hkey, Bool.false_eq_true, if_false]
      have hnotmem : pkgKey info ∉ st.processed := fun hm => hkey (List.elem_iff.mpr hm)
      have hst' : WalkInv
          { st with
            packages := st.packages ++ [(info, depth)],
            processed := st.processed ++ [pkgKey info] } := by
        constructor
        · simp only [WalkInv, walkKeys, List.map_append, List.map_cons, List.map_nil,
            List.nodup_append, List.nodup_cons, List.not_mem_nil, List.nodup_nil]
          refine ⟨hst.1, by simp, ?_⟩
          intro k hk hk2
          simp only [List.mem_singleton] at hk2
          subst hk2
          exact hnotmem (hst.2 _ hk)
        · intro k hk
          simp only [walkKeys, List.map_append, List.map_cons, List.map_nil,
            List.mem_append, List.mem_singleton] at hk
          rcases hk with hk | hk
          · exact List.mem_append_left _ (hst.2 _ hk)
          · subst hk
            exact List.mem_append_right _ (List.mem_singleton_self _)
      cases hfs : fsm (packagePath ++ ["node_modules".toList]) with
      | missing => exact hst'
      | fileNode m => exact hrec _ _ hst'
      | dirNode es => exact hrec _ _ hst'

/-- The namespace loop preserves the key invariant. -/
theorem walkNsEntries_inv (fsm : FsMap) (recurse : FPath → WalkState → WalkState)
    (depth : Nat) (nsPath : FPath)
    (hrec : ∀ p s, WalkInv s → WalkInv (recurse p s)) :
    ∀ es st, WalkInv st → WalkInv (walkNsEntries fsm recurse depth nsPath es st) := by
  intro es
  induction es with
  | nil => intro st hst; exact hst
  | cons e rest ih =>
    intro st hst
    rw [walkNsEntries]
    cases fsm (nsPath ++ [e]) with
    | missing => exact hst
    | fileNode m => exact ih st hst
    | dirNode es2 =>
      exact ih _ (processPackageDir_inv fsm recurse depth (nsPath ++ [e]) hrec st hst)

/-- The main entry loop preserves the key invariant. -/
theorem walkEntries_inv (fsm : FsMap) (recurse : FPath → WalkState → WalkState)
    (depth : Nat) (nmPath : FPath)
    (hrec : ∀ p s, WalkInv s → WalkInv (recurse p s)) :
    ∀ es st, WalkInv st → WalkInv (walkEntries fsm recurse depth nmPath es st) := by
  intro es
  induction es with
  | nil => intro st hst; exact hst
  | cons e rest ih =>
    intro st hst
    rw [walkEntries]
    by_cases hat : e.head? = some '@'
    · rw [if_pos hat]
      cases fsm (nmPath ++ [e]) with
      | missing => exact hst
      | fileNode m => exact ih st hst
      | dirNode nsEntries =>
        exact ih _ (walkNsEntries_inv fsm recurse depth (nmPath ++ [e]) hrec nsEntries st hst)
    · rw [if_neg hat]
      by_cases hex : e = ".bin".toList || e = ".cache".toList || e = ".package-lock.json".toList
      · rw [if_pos hex]; exact ih st hst
      · rw [if_neg hex]
        cases fsm (nmPath ++ [e]) with
        | missing => exact hst
        | fileNode m => exact ih st hst
        | dirNode es2 =>
          exact ih _ (processPackageDir_inv fsm recurse depth (nmPath ++ [e]) hrec st hst)

/-- The whole recursive walk preserves the key invariant. -/
theorem getAllPackagesGo_inv (fsm : FsMap) :
    ∀ fuel depth path st, WalkInv st → WalkInv (getAllPackagesGo fsm fuel depth path st) := by
  intro fuel
  induction fuel with
  | zero => intro _ _ st hst; exact hst
  | succ fuel ih =>
    intro depth path st hst
    rw [getAllPackagesGo]
    cases fsm path with
    | missing =>
      by_cases hd : depth = 0
      · rw [if_pos hd]; exact hst
      · rw [if_neg hd]; exact hst
    | fileNode m => exact hst
    | dirNode entries =>
      exact walkEntries_inv fsm _ depth path (fun p s hs => ih (depth + 1) p s hs)
        entries st hst

/-- The per-package block records packages only at the current depth, so it
preserves any depth bound the current depth satisfies. -/
theorem processPackageDir_depth (fsm : FsMap) (recurse : FPath → WalkState → WalkState)
    (bound depth : Nat) (packagePath : FPath) (hd : depth ≤ bound)
    (hrec : ∀ p s, DepthOk bound s → DepthOk bound (recurse p s)) :
    ∀ st, DepthOk bound st →
      DepthOk bound (processPackageDir fsm recurse depth packagePath st) := by
  intro st hst
  rw [processPackageDir]
  cases hinfo : getPackageInfoAt fsm packagePath with
  | none => exact hst
  | some info =>
    by_cases hkey : st.processed.contains (pkgKey info) = true
    · simp only [hkey, if_true]; exact hst
    · simp only [hkey, Bool.false_eq_true, if_false]
      have hst' : DepthOk bound
          { st with
            packages := st.packages ++ [(info, depth)],
            processed := st.processed ++ [pkgKey info] } := by
        intro x hx
        simp only [List.mem_append, List.mem_singleton] at hx
        rcases hx with hx | hx
        · exact hst x hx
        · subst hx; exact hd
      cases hfs : fsm (packagePath ++ ["node_modules".toList]) with
      | missing => exact hst'
      | fileNode m => exact hrec _ _ hst'
      | dirNode es => exact hrec _ _ hst'

/-- The namespace loop preserves a depth bound the current depth satisfies. -/
theorem walkNsEntries_depth (fsm : FsMap) (recurse : FPath → WalkState → WalkState)
    (bound depth : Nat) (nsPath : FPath) (hd : depth ≤ bound)
    (hrec : ∀ p s, DepthOk bound s → DepthOk bound (recurse p s)) :
    ∀ es st, DepthOk bound st →
      DepthOk bound (walkNsEntries fsm recurse depth nsPath es st) := by
  intro es
  induction es with
  | nil => intro st hst; exact hst
  | cons e rest ih =>
    intro st hst
    rw [walkNsEntries]
    cases fsm (nsPath ++ [e]) with
    | missing => exact hst
    | fileNode m => exact ih st hst
    | dirNode es2 =>
      exact ih _ (processPackageDir_depth fsm recurse bound depth (nsPath ++ [e]) hd hrec st hst)

/-- The main entry loop preserves a depth bound the current depth satisfies. -/
theorem walkEntries_depth (fsm : FsMap) (recurse : FPath → WalkState → WalkState)
    (bound depth : Nat) (nmPath : FPath) (hd : depth ≤ bound)
    (hrec : ∀ p s, DepthOk bound s → DepthOk bound (recurse p s)) :
    ∀ es st, DepthOk bound st →
      DepthOk bound (walkEntries fsm recurse depth nmPath es st) := by
  intro es
  induction es with
  | nil => intro st hst; exact hst
  | cons e rest ih =>
    intro st hst
    rw [walkEntries]
    by_cases hat : e.head? = some '@'
    · rw [if_pos hat]
      cases fsm (nmPath ++ [e]) with
      | missing => exact hst
      | fileNode m => exact ih st hst
      | dirNode nsEntries =>
        exact ih _
          (walkNsEntries_depth fsm recurse bound depth (nmPath ++ [e]) hd hrec nsEntries st hst)
    · rw [if_neg hat]
      by_cases hex : e = ".bin".toList || e = ".cache".toList || e = ".package-lock.json".toList
      · rw [if_pos hex]; exact ih st hst
      · rw [if_neg hex]
        cases fsm (nmPath ++ [e]) with
        | missing => exact hst
        | fileNode m => exact ih st hst
        | dirNode es2 =>
          exact ih _
            (processPackageDir_depth fsm recurse bound depth (nmPath ++ [e]) hd hrec st hst)

/-- The whole walk records packages only at depths below the remaining
fuel allows: with `depth + fuel ≤ bound + 1`, every recorded depth is at
most `bound`. -/
theorem getAllPackagesGo_depth (fsm : FsMap) (bound : Nat) :
    ∀ fuel depth path st, depth + fuel ≤ bound + 1 → DepthOk bound st →
      DepthOk bound (getAllPackagesGo fsm fuel depth path st) := by
  intro fuel
  induction fuel with
  | zero => intro _ _ st _ hst; exact hst
  | succ fuel ih =>
    intro depth path st hfuel hst
    rw [getAllPackagesGo]
    cases fsm path with
    | missing =>
      by_cases hd : depth = 0
      · rw [if_pos hd]; exact hst
      · rw [if_neg hd]; exact hst
    | fileNode m => exact hst
    | dirNode entries =>
      exact walkEntries_depth fsm _ bound depth path (by omega)
        (fun p s hs => ih (depth + 1) p s (by omega) hs) entries st hst

/-- Deleting the first occurrence of an absent character is the identity. -/
theorem removeFirstChar_of_not_contains (pat : Char) :
    ∀ l : List Char, l.contains pat = false → removeFirstChar pat l = l := by
  intro l
  induction l with
  | nil => intro _; rfl
  | cons c rest ih =>
    intro h
    rw [List.contains_cons, Bool.or_eq_false_iff] at h
    have hc : (c == pat) = false := by
      cases hcp : (c == pat)
      · rfl
      · have hcc : c = pat := (beq_iff_eq ..).mp hcp
        subst hcc
        simp at h
    rw [removeFirstChar]
    simp only [hc, Bool.false_eq_true, if_false]
    rw [ih h.2]

/-- Replacing the first occurrence of an absent character is the identity. -/
theorem replaceFirstChar_of_not_contains (pat sub : Char) :
    ∀ l : List Char, l.contains pat = false → replaceFirstChar pat sub l = l := by
  intro l
  induction l with
  | nil => intro _; rfl
  | cons c rest ih =>
    intro h
    rw [List.contains_cons, Bool.or_eq_false_iff] at h
    have hc : (c == pat) = false := by
      cases hcp : (c == pat)
      · rfl
      · have hcc : c = pat := (beq_iff_eq ..).mp hcp
        subst hcc
        simp at h
    rw [replaceFirstChar]
    simp only [hc, Bool.false_eq_true, if_false]
    rw [ih h.2]

/-! ## Claim theorems -/

/-- C1, counterexample: on the spec's end-to-end example — archive
directory with exactly `left-pad-1.0.0.tgz` and `@scope-utils-2.3.4.tgz`,
registry holding `left-pad@1.0.0` and not `@scope/utils@2.3.4` — the run
does NOT report successCount=1, skippedCount=1, failureCount=0 with exactly
one publish invocation. -/
theorem c1_counterexample :
    ¬ (c1Run.success = 1 ∧ c1Run.skipped = 1 ∧ c1Run.failure = 0 ∧
        c1Run.publishes = ["@scope-utils-2.3.4.tgz".toList]) := by decide

/-- C1, amended: on that same example the run reports successCount=1,
skippedCount=0, failureCount=1, and invokes two publish commands, one per
archive.  The scope heuristic decodes `left-pad-1.0.0.tgz` as
`@left/pad@1.0.0` and `@scope-utils-2.3.4.tgz` as `@@scope/utils@2.3.4`, so
the registry check finds neither; the publish of `left-pad-1.0.0.tgz` then
fails against the already-present `left-pad@1.0.0` while
`@scope-utils-2.3.4.tgz` publishes successfully. -/
theorem c1_amended :
    c1Run.exitCode = none ∧
    c1Run.success = 1 ∧ c1Run.skipped = 0 ∧ c1Run.failure = 1 ∧
    c1Run.publishes = ["@scope-utils-2.3.4.tgz".toList, "left-pad-1.0.0.tgz".toList] ∧
    extractPackageInfo ("left-pad-1.0.0.tgz".toList) =
      some ("@left/pad".toList, "1.0.0".toList) ∧
    extractPackageInfo ("@scope-utils-2.3.4.tgz".toList) =
      some ("@@scope/utils".toList, "2.3.4".toList) := by decide

/-- C2, counterexample: with `node_modules` missing, the Snapshotter run
does not write `packages-summary.json` (the empty-result early return in
`main` comes before the summary write), contradicting the claim that a
summary describing zero packages is still written. -/
theorem c2_counterexample :
    (snapMain fsNone (fun _ => true)).summaryWritten = false := by decide

/-- C2, amended: when the `node_modules` root does not exist the Snapshotter
run is non-fatal — the walk returns an empty result set and logs the
depth-0 warning, `main` logs that no package was found — but it returns
without writing a summary record: no `packages-summary.json` is produced. -/
theorem c2_amended (fsm : FsMap) (packOk : PkgInfo → Bool)
    (h : fsm nodeModulesRoot = FSKind.missing) :
    (getAllPackages fsm nodeModulesRoot 10).packages = [] ∧
    (getAllPackages fsm nodeModulesRoot 10).warnedMissing = true ∧
    (snapMain fsm packOk).summaryWritten = false ∧
    (snapMain fsm packOk).warnedEmpty = true := by
  have hwalk : getAllPackages fsm nodeModulesRoot 10 = ⟨[], [], true⟩ := by
    rw [getAllPackages, getAllPackagesGo, h]
    rfl
  exact ⟨by rw [hwalk], by rw [hwalk],
    by simp [snapMain, hwalk], by simp [snapMain, hwalk]⟩

/-- C2, witness for the amended theorem at a concrete file system. -/
theorem c2_witness :
    (getAllPackages fsNone nodeModulesRoot 10).packages = [] ∧
    (getAllPackages fsNone nodeModulesRoot 10).warnedMissing = true ∧
    (snapMain fsNone (fun _ => true)).summaryWritten = false ∧
    (snapMain fsNone (fun _ => true)).warnedEmpty = true :=
  c2_amended fsNone (fun _ => true) (by decide)

/-- C3, counterexample: the filename `a-1.2.3-4.5.6.tgz` has the form
name-version.tgz with name `a-1.2.3` and version-pattern-matching version
`4.5.6`, but the decoder returns version `1.2.3-4.5.6` (the regex matches
at the leftmost viable hyphen), so every re-encoded candidate carries the
version component `1.2.3-4.5.6`, which is not byte-identical to `4.5.6`. -/
theorem c3_counterexample :
    versionLike ("4.5.6".toList) = true ∧
    "a-1.2.3-4.5.6.tgz".toList = "a-1.2.3".toList ++ '-' :: ("4.5.6".toList ++ tgzExt) ∧
    extractPackageInfo ("a-1.2.3-4.5.6.tgz".toList) =
      some ("a".toList, "1.2.3-4.5.6".toList) ∧
    getPossiblePackageFilenames ("a".toList) ("1.2.3-4.5.6".toList) =
      ["a-1.2.3-4.5.6.tgz".toList, "a-1.2.3-4.5.6.tgz".toList,
        "a-1.2.3-4.5.6.tgz".toList] ∧
    ("1.2.3-4.5.6".toList ≠ "4.5.6".toList) := by decide

/-- C3, amended: for every filename of the form name-version.tgz whose
version part matches the version pattern and is moreover a longest
version-like suffix of the extension-stripped base name (no hyphen earlier
in the base name also starts a full version-like suffix), decoding with
extractPackageInfo yields exactly that version, and every re-encoded
candidate from getPossiblePackageFilenames ends in a hyphen, that same
version, and the extension — its version component is byte-identical to
the input's. -/
theorem c3_amended (name version f : List Char)
    (hf : f = name ++ '-' :: (version ++ tgzExt))
    (hv : versionLike version = true)
    (hmax : maxVerLe (stripTgz f) version.length = true) :
    ∃ n, extractPackageInfo f = some (n, version) ∧
      ∀ c ∈ getPossiblePackageFilenames n version,
        ∃ stem, c = stem ++ '-' :: (version ++ tgzExt) := by
  have hbase : stripTgz f = name ++ '-' :: version := by
    rw [hf, show name ++ '-' :: (version ++ tgzExt) = (name ++ '-' :: version) ++ tgzExt by
      simp]
    exact stripTgz_concat _
  obtain ⟨q, w, hq, hlen⟩ := findVersionSuffix_complete name version hv
  rw [← hbase] at hq
  obtain ⟨hsplit, hw⟩ := findVersionSuffix_sound _ q w hq
  have hwlen : w.length ≤ version.length := maxVerLe_spec _ _ hmax q w hsplit hw
  have happ : name ++ '-' :: version = q ++ '-' :: w := by rw [← hbase, hsplit]
  obtain ⟨hnq, hvw⟩ := List.append_inj' happ
    (by simp only [List.length_cons]; omega)
  have hvw2 : version = w := by injection hvw
  subst hvw2
  refine ⟨scopeName q, ?_, ?_⟩
  · simp [extractPackageInfo, hq]
  · intro c hc
    simp only [getPossiblePackageFilenames, List.mem_cons, List.not_mem_nil,
      or_false] at hc
    rcases hc with hc | hc | hc
    · exact ⟨replaceFirstChar '/' '-' (removeFirstChar '@' (scopeName q)), hc⟩
    · exact ⟨if (scopeName q).contains '/' then
        (((scopeName q).dropWhile notSlash).drop 1).takeWhile notSlash
        else scopeName q, hc⟩
    · exact ⟨replaceFirstChar '/' '-' (removeFirstChar '@' (scopeName q)), hc⟩

/-- C3, witness for the amended theorem at `foo-1.0.0.tgz`. -/
theorem c3_witness :
    ∃ n, extractPackageInfo ("foo-1.0.0.tgz".toList) = some (n, "1.0.0".toList) ∧
      ∀ c ∈ getPossiblePackageFilenames n ("1.0.0".toList),
        ∃ stem, c = stem ++ '-' :: ("1.0.0".toList ++ tgzExt) :=
  c3_amended ("foo".toList) ("1.0.0".toList) ("foo-1.0.0.tgz".toList)
    (by decide) (by decide) (by decide)

/-- C4: the decoder returns no result exactly when the extension-stripped
base name has no trailing version-like suffix; and when it returns a
result, the base name splits at a hyphen into a name-with-hyphen part and
the returned version-like version, with the returned name obtained from the
name-with-hyphen part by the spec's scoped-name reconstruction (namespace =
first hyphen-segment when that segment contains no period, otherwise the
name-with-hyphen form unchanged — `specScopedName`). -/
theorem c4_decode (f : List Char) :
    (extractPackageInfo f = none ↔
      ¬ ∃ pre v, stripTgz f = pre ++ '-' :: v ∧ versionLike v = true) ∧
    (∀ n v, extractPackageInfo f = some (n, v) →
      ∃ pre, stripTgz f = pre ++ '-' :: v ∧ versionLike v = true ∧
        n = specScopedName pre) := by
  constructor
  · constructor
    · intro hnone hex
      obtain ⟨pre, v, hsplit, hv⟩ := hex
      obtain ⟨q, w, hq, _⟩ := findVersionSuffix_complete pre v hv
      rw [← hsplit] at hq
      simp [extractPackageInfo, hq] at hnone
    · intro hnex
      cases hfv : findVersionSuffix (stripTgz f) with
      | none => simp [extractPackageInfo, hfv]
      | some pv =>
        obtain ⟨hsp, hv⟩ := findVersionSuffix_sound _ pv.1 pv.2 (by rw [hfv])
        exact absurd ⟨pv.1, pv.2, hsp, hv⟩ hnex
  · intro n v hsome
    cases hfv : findVersionSuffix (stripTgz f) with
    | none => simp [extractPackageInfo, hfv] at hsome
    | some pv =>
      obtain ⟨hsp, hv⟩ := findVersionSuffix_sound _ pv.1 pv.2 (by rw [hfv])
      simp only [extractPackageInfo, hfv] at hsome
      obtain ⟨hn, hvv⟩ := Option.some.inj hsome |> Prod.mk.inj
      subst hn
      subst hvv
      exact ⟨pv.1, hsp, hv, scopeName_eq_specScopedName pv.1⟩

/-- C4, witness: the decode of `left-pad-1.0.0.tgz` splits as described. -/
theorem c4_witness :
    ∃ pre, stripTgz ("left-pad-1.0.0.tgz".toList) = pre ++ '-' :: ("1.0.0".toList) ∧
      versionLike ("1.0.0".toList) = true ∧
      "@left/pad".toList = specScopedName pre :=
  (c4_decode ("left-pad-1.0.0.tgz".toList)).2 ("@left/pad".toList) ("1.0.0".toList)
    (by decide)

/-- C5: for every file system and root, the composite keys of the walk's
discovered package set are pairwise distinct (at most one entry per
`name@version`); and on the concrete tree with identical manifests at
depths 0 and 1, the walk records exactly one entry with that key. -/
theorem c5_dedup :
    (∀ (fsm : FsMap) (nmPath : FPath) (maxDepth : Nat),
      (walkKeys (getAllPackages fsm nmPath maxDepth)).Nodup) ∧
    ((getAllPackages fsDup nodeModulesRoot 10).packages.filter
      (fun x => pkgKey x.1 == "a@1.0.0".toList)).length = 1 := by
  constructor
  · intro fsm nmPath maxDepth
    exact (getAllPackagesGo_inv fsm (maxDepth + 1) 0 nmPath ⟨[], [], false⟩
      ⟨by simp [walkKeys], by simp [walkKeys]⟩).1
  · decide

/-- C6: for every file system (including the cyclic one) the walk with the
source's bound records packages only at recursion depths at most the
configured maximum — nothing deeper is recorded; and on the manufactured
cyclic structure `fsCyc` the walk terminates with exactly the 11 packages
of depths 0 through 10. -/
theorem c6_depth_bound :
    (∀ (fsm : FsMap) (nmPath : FPath) (maxDepth : Nat),
      ∀ x ∈ (getAllPackages fsm nmPath maxDepth).packages, x.2 ≤ maxDepth) ∧
    (getAllPackages fsCyc nodeModulesRoot 10).packages.length = 11 := by
  constructor
  · intro fsm nmPath maxDepth
    exact getAllPackagesGo_depth fsm maxDepth (maxDepth + 1) 0 nmPath ⟨[], [], false⟩
      (by omega) (by intro x hx; simp at hx)
  · decide

/-- C6, witness: the depth-0 package of the cyclic walk is recorded within
the bound. -/
theorem c6_witness :
    (("a".toList, List.replicate 3 'x'), 0) ∈
      (getAllPackages fsCyc nodeModulesRoot 10).packages ∧
    ((("a".toList, List.replicate 3 'x'), 0) : PkgInfo × Nat).2 ≤ 10 :=
  ⟨by decide, c6_depth_bound.1 fsCyc nodeModulesRoot 10 _ (by decide)⟩

/-- C7: a package one of whose candidate archive filenames already exists
in the output directory is counted as skipped and as a success with no
external create invocation; and across a whole archive-creation loop, every
package for which the external command was invoked had no pre-existing
candidate archive. -/
theorem c7_skip_policy :
    (∀ (fsm : FsMap) (packOk : PkgInfo → Bool) (acc : PackAcc) (pkg : PkgInfo),
      isPackageAlreadyDownloaded fsm pkg.1 pkg.2 = true →
        packStep fsm packOk acc pkg =
          { acc with skipped := acc.skipped + 1, success := acc.success + 1 }) ∧
    (∀ (fsm : FsMap) (packOk : PkgInfo → Bool) (pkgs : List PkgInfo),
      ∀ x ∈ (packLoop fsm packOk pkgs).invocations,
        isPackageAlreadyDownloaded fsm x.1 x.2 = false) := by
  constructor
  · intro fsm packOk acc pkg h
    rw [packStep, if_pos h]
  · intro fsm packOk pkgs
    have main : ∀ (ps : List PkgInfo) (acc : PackAcc),
        (∀ x ∈ acc.invocations, isPackageAlreadyDownloaded fsm x.1 x.2 = false) →
        ∀ x ∈ (ps.foldl (packStep fsm packOk) acc).invocations,
          isPackageAlreadyDownloaded fsm x.1 x.2 = false := by
      intro ps
      induction ps with
      | nil => intro acc hacc; exact hacc
      | cons p rest ih =>
        intro acc hacc
        rw [List.foldl_cons]
        apply ih
        by_cases hp : isPackageAlreadyDownloaded fsm p.1 p.2 = true
        · rw [packStep, if_pos hp]; exact hacc
        · rw [packStep, if_neg hp, createPackageFile, if_neg hp]
          have hinv : ∀ x ∈ acc.invocations ++ [p],
              isPackageAlreadyDownloaded fsm x.1 x.2 = false := by
            intro x hx
            rcases List.mem_append.mp hx with hx | hx
            · exact hacc x hx
            · rw [List.mem_singleton] at hx
              subst hx
              cases hval : isPackageAlreadyDownloaded fsm x.1 x.2
              · rfl
              · exact absurd hval hp
          by_cases hok : packOk p = true
          · simp only [hok, if_true]
            exact hinv
          · simp only [hok, Bool.false_eq_true, if_false]
            exact hinv
    exact main pkgs ⟨0, 0, 0, []⟩ (by intro x hx; simp at hx)

/-- C7, witness: a pre-existing `foo-1.0.0.tgz` makes the step skip and
succeed without invoking the external command, while a package without a
pre-existing archive that does get invoked indeed had none. -/
theorem c7_witness :
    isPackageAlreadyDownloaded fsFooPkg ("foo".toList) ("1.0.0".toList) = true ∧
    packStep fsFooPkg (fun _ => true) ⟨0, 0, 0, []⟩ ("foo".toList, "1.0.0".toList) =
      ⟨1, 1, 0, []⟩ ∧
    isPackageAlreadyDownloaded fsFooPkg ("bar".toList) ("2.0.0".toList) = false :=
  ⟨by decide,
   c7_skip_policy.1 fsFooPkg (fun _ => true) ⟨0, 0, 0, []⟩ ("foo".toList, "1.0.0".toList)
     (by decide),
   c7_skip_policy.2 fsFooPkg (fun _ => true) [("bar".toList, "2.0.0".toList)]
     ("bar".toList, "2.0.0".toList) (by decide)⟩

/-- C8: the registry-existence check returns true only when the query
resolved and its trimmed stdout is exactly the queried version string;
every rejected query yields false — and in the publish loop a file whose
query was rejected is treated as not published, proceeding to a publish
invocation rather than to any distinct error outcome. -/
theorem c8_publish_check :
    (∀ version, isPackagePublished QueryResult.err version = false) ∧
    (∀ q version, isPackagePublished q version = true ↔
      ∃ out, q = QueryResult.ok out ∧ trimChars out = version) ∧
    (∀ (view : List Char → List Char → QueryResult) (publishOk : List Char → Bool)
        (acc : PubAcc) (file name version : List Char),
      extractPackageInfo file = some (name, version) →
      view name version = QueryResult.err →
      (publishStep view publishOk acc file).publishes = acc.publishes ++ [file]) := by
  refine ⟨fun _ => rfl, ?_, ?_⟩
  · intro q version
    cases q with
    | err => simp [isPackagePublished]
    | ok out =>
      show (trimChars out == version) = true ↔ _
      constructor
      · intro h
        exact ⟨out, rfl, (beq_iff_eq ..).mp h⟩
      · rintro ⟨out', hq, ht⟩
        injection hq with hq'
        subst hq'
        exact (beq_iff_eq ..).mpr ht
  · intro view publishOk acc file name version hext hview
    simp only [publishStep, hext]
    rw [hview]
    simp only [isPackagePublished, Bool.false_eq_true, if_false]
    by_cases hok : publishOk file = true
    · simp [hok]
    · simp [hok]

/-- C8, witness: a rejected query makes the loop publish the file. -/
theorem c8_witness :
    (publishStep (fun _ _ => QueryResult.err) (fun _ => true) ⟨0, 0, 0, []⟩
      ("x-1.0.0.tgz".toList)).publishes = [] ++ ["x-1.0.0.tgz".toList] :=
  c8_publish_check.2.2 (fun _ _ => QueryResult.err) (fun _ => true) ⟨0, 0, 0, []⟩
    ("x-1.0.0.tgz".toList) ("x".toList) ("1.0.0".toList) (by decide) rfl

/-- C9: the publisher exits with status 1 when the archive directory
argument is missing, exits with status 1 when the given directory does not
exist, and exits with status 0 after logging the warning when the directory
contains no `.tgz` file. -/
theorem c9_exit_codes (args : List (List Char)) (dirExists : Bool)
    (dirEntries : List (List Char)) (view : List Char → List Char → QueryResult)
    (publishOk : List Char → Bool) :
    (args = [] →
      (runPublisher args dirExists dirEntries view publishOk).exitCode = some 1) ∧
    (args ≠ [] → dirExists = false →
      (runPublisher args dirExists dirEntries view publishOk).exitCode = some 1) ∧
    (args ≠ [] → dirExists = true →
      dirEntries.filter (fun f => tgzExt.isSuffixOf f) = [] →
      (runPublisher args dirExists dirEntries view publishOk).exitCode = some 0 ∧
      (runPublisher args dirExists dirEntries view publishOk).warnedEmpty = true) := by
  refine ⟨?_, ?_, ?_⟩
  · intro h
    subst h
    rfl
  · intro hne hdir
    subst hdir
    have hlen : ¬(args.length < 1) := by
      cases args with
      | nil => exact absurd rfl hne
      | cons a rest => simp
    simp [runPublisher, hlen]
  · intro hne hdir hfilt
    subst hdir
    have hlen : ¬(args.length < 1) := by
      cases args with
      | nil => exact absurd rfl hne
      | cons a rest => simp
    constructor
    · simp [runPublisher, hlen, hfilt]
    · simp [runPublisher, hlen, hfilt]

/-- C9, witness at concrete inputs for all three exits. -/
theorem c9_witness :
    (runPublisher [] true [] (fun _ _ => QueryResult.err) (fun _ => true)).exitCode =
      some 1 ∧
    (runPublisher ["d".toList] false [] (fun _ _ => QueryResult.err)
      (fun _ => true)).exitCode = some 1 ∧
    (runPublisher ["d".toList] true ["readme.md".toList] (fun _ _ => QueryResult.err)
        (fun _ => true)).exitCode = some 0 ∧
    (runPublisher ["d".toList] true ["readme.md".toList] (fun _ _ => QueryResult.err)
        (fun _ => true)).warnedEmpty = true :=
  ⟨(c9_exit_codes [] true [] (fun _ _ => QueryResult.err) (fun _ => true)).1 rfl,
   (c9_exit_codes ["d".toList] false [] (fun _ _ => QueryResult.err)
     (fun _ => true)).2.1 (by decide) rfl,
   ((c9_exit_codes ["d".toList] true ["readme.md".toList] (fun _ _ => QueryResult.err)
     (fun _ => true)).2.2 (by decide) rfl (by decide)).1,
   ((c9_exit_codes ["d".toList] true ["readme.md".toList] (fun _ _ => QueryResult.err)
     (fun _ => true)).2.2 (by decide) rfl (by decide)).2⟩

/-- C10: for every package identity, the first and third candidate archive
filenames are the same string (the source repeats the same template), so at
most two candidates are distinct; and for an unscoped name (no `@` and no
`/`) all three candidates coincide, leaving exactly one distinct
candidate. -/
theorem c10_candidates (name version : List Char) :
    (∃ a b, getPossiblePackageFilenames name version = [a, b, a]) ∧
    (name.contains '@' = false → name.contains '/' = false →
      ∃ a, getPossiblePackageFilenames name version = [a, a, a]) := by
  constructor
  · exact ⟨_, _, rfl⟩
  · intro hat hslash
    have hslash2 : '/' ∉ name := by simpa using hslash
    refine ⟨name ++ '-' :: (version ++ tgzExt), ?_⟩
    simp [getPossiblePackageFilenames, hslash, hslash2,
      removeFirstChar_of_not_contains '@' name hat,
      replaceFirstChar_of_not_contains '/' '-' name hslash]

/-- C10, witness at the unscoped name `foo`. -/
theorem c10_witness :
    ∃ a, getPossiblePackageFilenames ("foo".toList) ("1.0.0".toList) = [a, a, a] :=
  (c10_candidates ("foo".toList) ("1.0.0".toList)).2 (by decide) (by decide)
